import Mathlib

/-!
Verification of the locale-update merge utility (`update_locales.py`).

The script deep-merges small JSON "addition" documents into per-locale JSON
dictionaries, preserving key order, and reports which dotted key paths were
added or overwritten.  We embed the JSON value model, the order-preserving
recursive merge, the filename-to-locale resolver and the per-file / batch
processing drivers, and prove the documented properties about them.
-/

set_option autoImplicit false

/-- JSON values as produced by `json.load` with `object_pairs_hook=OrderedDict`:
objects are insertion-ordered association lists; everything else is terminal. -/
inductive Json where
  | obj  : List (String × Json) → Json
  | str  : String → Json
  | num  : Int → Json
  | bool : Bool → Json
  | null : Json
  | arr  : List Json → Json
deriving Repr

/-- Embeds `isinstance(v, dict)` of the Python code. -/
def Json.isObj : Json → Bool
  | Json.obj _ => true
  | _ => false

/-- One entry of the `added_keys` list returned by `merge_recursive`: the code
appends the bare path for a newly inserted key and `path + " (updated)"` for an
overwrite, so a record is a path tagged with which of the two strings was built. -/
inductive ChangeRecord where
  | added (path : String)
  | updated (path : String)
deriving Repr, DecidableEq

/-- The dotted path carried by a change record. -/
def ChangeRecord.path : ChangeRecord → String
  | ChangeRecord.added p => p
  | ChangeRecord.updated p => p

/-- Whether the record is an overwrite record. -/
def ChangeRecord.isUpdated : ChangeRecord → Bool
  | ChangeRecord.added _ => false
  | ChangeRecord.updated _ => true

/-- The exact string the Python code appends to `added_keys` for this record. -/
def ChangeRecord.render : ChangeRecord → String
  | ChangeRecord.added p => p
  | ChangeRecord.updated p => p ++ " (updated)"

/-- Ordered-dictionary lookup: `target[key]` / `key in target` resolve to the
(unique, in well-formed documents the only) first binding of the key. -/
def lookupKey : List (String × Json) → String → Option Json
  | [], _ => none
  | (k, v) :: rest, key => if k = key then some v else lookupKey rest key

/-- The key sequence of an ordered dictionary, in insertion order. -/
def keys (m : List (String × Json)) : List String := m.map Prod.fst

/-- Embeds `key in target` of the Python code. -/
def containsKey (m : List (String × Json)) (key : String) : Bool :=
  (lookupKey m key).isSome

/-- Assignment `target[key] = value` on an `OrderedDict`: replaces the value in place if
the key is present (keeping its position), otherwise appends at the end. -/
def setKey : List (String × Json) → String → Json → List (String × Json)
  | [], key, v => [(key, v)]
  | (k, w) :: rest, key, v =>
    if k = key then (k, v) :: rest else (k, w) :: setKey rest key v

/-- Embeds `current_path = path + "." + key if path else key` of the Python code. -/
def joinPath (path key : String) : String :=
  if path = "" then key else path ++ "." ++ key

/-- Embedding of `merge_recursive(target, updates, path)`: iterates the update
entries in order; absent keys are appended and recorded as added, dict-dict
pairs recurse, every other present key is overwritten and recorded as updated.
Returns the final target together with the accumulated change records. -/
def mergeRecursive : List (String × Json) → List (String × Json) → String →
    List (String × Json) × List ChangeRecord
  | target, [], _ => (target, [])
  | target, (key, value) :: rest, path =>
    match lookupKey target key with
    | none =>
      let r := mergeRecursive (target ++ [(key, value)]) rest path
      (r.1, ChangeRecord.added (joinPath path key) :: r.2)
    | some tv =>
      match value, tv with
      | Json.obj uObj, Json.obj tObj =>
        let c := mergeRecursive tObj uObj (joinPath path key)
        let r := mergeRecursive (setKey target key (Json.obj c.1)) rest path
        (r.1, c.2 ++ r.2)
      | _, _ =>
        let r := mergeRecursive (setKey target key value) rest path
        (r.1, ChangeRecord.updated (joinPath path key) :: r.2)
termination_by _ u _ => sizeOf u
decreasing_by all_goals (simp_wf <;> omega)

/-- Value reached by walking a sequence of keys down nested objects. -/
def getPath : Json → List String → Option Json
  | j, [] => some j
  | Json.obj m, key :: ks =>
    (match lookupKey m key with
     | some v => getPath v ks
     | none => none)
  | _, _ :: _ => none
termination_by _ ps => ps.length

mutual

/-- Well-formedness of a document: at every object level the keys are distinct
(Python dictionaries cannot hold a key twice). -/
def nodupDeep : Json → Bool
  | Json.obj m => decide ((m.map Prod.fst).Nodup) && nodupDeepList m
  | _ => true

/-- Extends `nodupDeep` to every value of an entry list. -/
def nodupDeepList : List (String × Json) → Bool
  | [] => true
  | (_, v) :: rest => nodupDeep v && nodupDeepList rest

end

/-! ### Basic facts about ordered-dictionary primitives -/

theorem lookupKey_append_self {t : List (String × Json)} {k : String} (v : Json)
    (h : lookupKey t k = none) : lookupKey (t ++ [(k, v)]) k = some v := by
  induction t with
  | nil => simp [lookupKey]
  | cons hd tl ih =>
    obtain ⟨k', v'⟩ := hd
    by_cases hk : k' = k
    · simp [lookupKey, hk] at h
    · simp [lookupKey, hk] at h ⊢
      exact ih h

theorem lookupKey_append_ne {t : List (String × Json)} {k k' : String} (v : Json)
    (h : k' ≠ k) : lookupKey (t ++ [(k', v)]) k = lookupKey t k := by
  induction t with
  | nil => simp [lookupKey, h]
  | cons hd tl ih =>
    obtain ⟨k0, v0⟩ := hd
    by_cases hk : k0 = k <;> simp [lookupKey, hk, ih]

theorem lookupKey_setKey_self (m : List (String × Json)) (k : String) (v : Json) :
    lookupKey (setKey m k v) k = some v := by
  induction m with
  | nil => simp [setKey, lookupKey]
  | cons hd tl ih =>
    obtain ⟨k0, v0⟩ := hd
    by_cases hk : k0 = k <;> simp [setKey, lookupKey, hk, ih]

theorem lookupKey_setKey_ne {m : List (String × Json)} {k k' : String} (v : Json)
    (h : k' ≠ k) : lookupKey (setKey m k' v) k = lookupKey m k := by
  induction m with
  | nil => simp [setKey, lookupKey, h]
  | cons hd tl ih =>
    obtain ⟨k0, v0⟩ := hd
    by_cases hk : k0 = k'
    · subst hk
      simp [setKey, lookupKey, h]
    · by_cases hk2 : k0 = k <;> simp [setKey, lookupKey, hk, hk2, ih, Ne.symm h]

theorem keys_append_single (t : List (String × Json)) (k : String) (v : Json) :
    keys (t ++ [(k, v)]) = keys t ++ [k] := by
  simp [keys]

theorem keys_setKey {m : List (String × Json)} {k : String} (v : Json)
    (h : (lookupKey m k).isSome = true) : keys (setKey m k v) = keys m := by
  induction m with
  | nil => simp [lookupKey] at h
  | cons hd tl ih =>
    obtain ⟨k0, v0⟩ := hd
    by_cases hk : k0 = k
    · simp [setKey, keys, hk]
    · simp [lookupKey, hk] at h
      simp [setKey, keys, hk] at ih ⊢
      exact ih h

theorem setKey_self {m : List (String × Json)} {k : String} {v : Json}
    (h : lookupKey m k = some v) : setKey m k v = m := by
  induction m with
  | nil => simp [lookupKey] at h
  | cons hd tl ih =>
    obtain ⟨k0, v0⟩ := hd
    by_cases hk : k0 = k
    · simp [lookupKey, hk] at h
      simp [setKey, hk, h]
    · simp [lookupKey, hk] at h
      simp [setKey, hk, ih h]

theorem lookupKey_eq_none_iff (m : List (String × Json)) (k : String) :
    lookupKey m k = none ↔ k ∉ keys m := by
  induction m with
  | nil => simp [lookupKey, keys]
  | cons hd tl ih =>
    obtain ⟨k0, v0⟩ := hd
    by_cases hk : k0 = k
    · simp [lookupKey, keys, hk]
    · simp [lookupKey, keys, hk, Ne.symm hk, ih]

theorem lookupKey_mem {m : List (String × Json)} {k : String} {v : Json}
    (h : lookupKey m k = some v) : (k, v) ∈ m := by
  induction m with
  | nil => simp [lookupKey] at h
  | cons hd tl ih =>
    obtain ⟨k0, v0⟩ := hd
    by_cases hk : k0 = k
    · subst hk
      simp [lookupKey] at h
      simp [h]
    · simp [lookupKey, hk] at h
      exact List.mem_cons_of_mem _ (ih h)

theorem Json.isObj_iff {v : Json} : v.isObj = true ↔ ∃ m, v = Json.obj m := by
  cases v <;> simp [Json.isObj]

/-! ### Unfolding lemmas for the three branches of the merge loop -/

theorem merge_nil (t : List (String × Json)) (p : String) :
    mergeRecursive t [] p = (t, []) := by
  simp [mergeRecursive]

theorem merge_cons_absent {t : List (String × Json)} {k : String} (v : Json)
    (rest : List (String × Json)) (p : String) (h : lookupKey t k = none) :
    mergeRecursive t ((k, v) :: rest) p =
      ((mergeRecursive (t ++ [(k, v)]) rest p).1,
       ChangeRecord.added (joinPath p k) :: (mergeRecursive (t ++ [(k, v)]) rest p).2) := by
  rw [mergeRecursive]
  simp [h]

theorem merge_cons_objobj {t : List (String × Json)} {k : String}
    (uObj : List (String × Json)) {tObj : List (String × Json)}
    (rest : List (String × Json)) (p : String)
    (h : lookupKey t k = some (Json.obj tObj)) :
    mergeRecursive t ((k, Json.obj uObj) :: rest) p =
      ((mergeRecursive
          (setKey t k (Json.obj (mergeRecursive tObj uObj (joinPath p k)).1)) rest p).1,
       (mergeRecursive tObj uObj (joinPath p k)).2 ++
       (mergeRecursive
          (setKey t k (Json.obj (mergeRecursive tObj uObj (joinPath p k)).1)) rest p).2) := by
  rw [mergeRecursive]
  simp [h]

theorem merge_cons_replace {t : List (String × Json)} {k : String} {v tv : Json}
    (rest : List (String × Json)) (p : String)
    (h : lookupKey t k = some tv) (hno : v.isObj = false ∨ tv.isObj = false) :
    mergeRecursive t ((k, v) :: rest) p =
      ((mergeRecursive (setKey t k v) rest p).1,
       ChangeRecord.updated (joinPath p k) :: (mergeRecursive (setKey t k v) rest p).2) := by
  rw [mergeRecursive]
  simp only [h]
  cases v <;> cases tv <;> simp [Json.isObj] at hno ⊢

/-- Any present-key branch: the target evolves by a single `setKey` and the head
record block is prepended to the records of the remainder. -/
theorem merge_cons_present {t : List (String × Json)} {k : String} {v tv : Json}
    (rest : List (String × Json)) (p : String) (h : lookupKey t k = some tv) :
    ∃ w rs, mergeRecursive t ((k, v) :: rest) p =
      ((mergeRecursive (setKey t k w) rest p).1,
       rs ++ (mergeRecursive (setKey t k w) rest p).2) := by
  by_cases hv : v.isObj = true
  · by_cases htv : tv.isObj = true
    · obtain ⟨uo, rfl⟩ := Json.isObj_iff.mp hv
      obtain ⟨tObj, rfl⟩ := Json.isObj_iff.mp htv
      exact ⟨_, _, merge_cons_objobj uo rest p h⟩
    · refine ⟨v, [ChangeRecord.updated (joinPath p k)], ?_⟩
      rw [merge_cons_replace rest p h (Or.inr (by simpa using htv))]
      simp
  · refine ⟨v, [ChangeRecord.updated (joinPath p k)], ?_⟩
    rw [merge_cons_replace rest p h (Or.inl (by simpa using hv))]
    simp

/-! ### Frame property: keys absent from the update are untouched -/

theorem merge_frame {u : List (String × Json)} (t : List (String × Json)) (p : String)
    {k : String} (hk : k ∉ keys u) :
    lookupKey (mergeRecursive t u p).1 k = lookupKey t k := by
  induction u generalizing t with
  | nil => simp [merge_nil]
  | cons hd rest ih =>
    obtain ⟨k0, v0⟩ := hd
    have hsplit : k ≠ k0 ∧ k ∉ keys rest := by
      simpa [keys, not_or] using hk
    cases hl : lookupKey t k0 with
    | none =>
      rw [merge_cons_absent v0 rest p hl]
      simp only
      rw [ih _ hsplit.2]
      exact lookupKey_append_ne v0 (Ne.symm hsplit.1)
    | some tv =>
      obtain ⟨w, rs, heq⟩ := merge_cons_present rest p hl
      have h1 := congrArg Prod.fst heq
      simp only at h1
      rw [h1, ih _ hsplit.2]
      exact lookupKey_setKey_ne w (Ne.symm hsplit.1)

/-! ### Key order: target keys keep their positions, new keys are appended -/

theorem keys_merge {u : List (String × Json)} (t : List (String × Json)) (p : String)
    (hnd : (keys u).Nodup) :
    keys (mergeRecursive t u p).1 =
      keys t ++ (keys u).filter (fun x => decide (x ∉ keys t)) := by
  induction u generalizing t with
  | nil => simp [merge_nil, keys]
  | cons hd rest ih =>
    obtain ⟨k0, v0⟩ := hd
    have hnd2 : k0 ∉ keys rest ∧ (keys rest).Nodup := by
      simpa [keys, List.nodup_cons] using hnd
    have hkeys : keys ((k0, v0) :: rest) = k0 :: keys rest := by simp [keys]
    cases hl : lookupKey t k0 with
    | none =>
      have hk0 : k0 ∉ keys t := (lookupKey_eq_none_iff t k0).mp hl
      rw [merge_cons_absent v0 rest p hl]
      simp only
      rw [ih (t ++ [(k0, v0)]) hnd2.2]
      have hcong : (keys rest).filter (fun x => decide (x ∉ keys (t ++ [(k0, v0)]))) =
          (keys rest).filter (fun x => decide (x ∉ keys t)) := by
        refine List.filter_congr ?_
        intro x hx
        have hxk : x ≠ k0 := fun he => hnd2.1 (he ▸ hx)
        simp [keys_append_single, hxk]
      rw [hcong, keys_append_single, hkeys]
      rw [List.filter_cons_of_pos (by simpa using hk0)]
      simp
    | some tv =>
      have hk0 : k0 ∈ keys t := by
        by_contra hmem
        rw [(lookupKey_eq_none_iff t k0).mpr hmem] at hl
        exact Option.noConfusion hl
      obtain ⟨w, rs, heq⟩ := merge_cons_present rest p hl
      have h1 := congrArg Prod.fst heq
      simp only at h1
      rw [h1, ih (setKey t k0 w) hnd2.2]
      have hks : keys (setKey t k0 w) = keys t := keys_setKey w (by simp [hl])
      rw [hks, hkeys, List.filter_cons_of_neg (by simpa using hk0)]

/-! ### Value at a key of the update after the merge -/

theorem lookup_merge_mem {u : List (String × Json)} (t : List (String × Json)) (p : String)
    {k : String} {v : Json} (hnd : (keys u).Nodup) (hk : lookupKey u k = some v) :
    lookupKey (mergeRecursive t u p).1 k = some v ∨
    ∃ uo tObj, v = Json.obj uo ∧ lookupKey t k = some (Json.obj tObj) ∧
      lookupKey (mergeRecursive t u p).1 k =
        some (Json.obj (mergeRecursive tObj uo (joinPath p k)).1) := by
  induction u generalizing t with
  | nil => simp [lookupKey] at hk
  | cons hd rest ih =>
    obtain ⟨k0, v0⟩ := hd
    have hnd2 : k0 ∉ keys rest ∧ (keys rest).Nodup := by
      simpa [keys, List.nodup_cons] using hnd
    by_cases hkk : k0 = k
    · subst hkk
      have hv : v0 = v := by simpa [lookupKey] using hk
      subst hv
      cases hl : lookupKey t k0 with
      | none =>
        left
        rw [merge_cons_absent v0 rest p hl]
        simp only
        rw [merge_frame _ p hnd2.1]
        exact lookupKey_append_self v0 hl
      | some tv =>
        by_cases hobj : v0.isObj = true ∧ tv.isObj = true
        · obtain ⟨uo, rfl⟩ := Json.isObj_iff.mp hobj.1
          obtain ⟨tObj, rfl⟩ := Json.isObj_iff.mp hobj.2
          right
          refine ⟨uo, tObj, rfl, rfl, ?_⟩
          rw [merge_cons_objobj uo rest p hl]
          simp only
          rw [merge_frame _ p hnd2.1]
          exact lookupKey_setKey_self t k0 _
        · left
          have hno : v0.isObj = false ∨ tv.isObj = false := by
            rcases hv0 : v0.isObj <;> rcases htv : tv.isObj <;> simp_all
          rw [merge_cons_replace rest p hl hno]
          simp only
          rw [merge_frame _ p hnd2.1]
          exact lookupKey_setKey_self t k0 v0
    · have hk' : lookupKey rest k = some v := by
        simpa [lookupKey, hkk] using hk
      cases hl : lookupKey t k0 with
      | none =>
        rw [merge_cons_absent v0 rest p hl]
        simp only
        have hres := ih (t ++ [(k0, v0)]) hnd2.2 hk'
        rwa [lookupKey_append_ne v0 hkk] at hres
      | some tv =>
        obtain ⟨w, rs, heq⟩ := merge_cons_present rest p hl
        have h1 := congrArg Prod.fst heq
        simp only at h1
        rw [h1]
        have hres := ih (setKey t k0 w) hnd2.2 hk'
        rwa [lookupKey_setKey_ne w hkk] at hres

/-! ### Deep well-formedness helpers -/

theorem nodupDeep_keys {m : List (String × Json)} (h : nodupDeep (Json.obj m) = true) :
    (keys m).Nodup := by
  simp [nodupDeep, keys] at h
  exact h.1

theorem nodupDeepList_mem {m : List (String × Json)} {k : String} {v : Json}
    (h : nodupDeepList m = true) (hm : (k, v) ∈ m) : nodupDeep v = true := by
  induction m with
  | nil => simp at hm
  | cons hd tl ih =>
    obtain ⟨k0, v0⟩ := hd
    simp [nodupDeepList] at h
    rcases List.mem_cons.mp hm with h1 | h2
    · cases h1
      exact h.1
    · exact ih h.2 h2

theorem nodupDeep_lookup {m : List (String × Json)} {k : String} {v : Json}
    (h : nodupDeep (Json.obj m) = true) (hl : lookupKey m k = some v) :
    nodupDeep v = true := by
  simp [nodupDeep] at h
  exact nodupDeepList_mem h.2 (lookupKey_mem hl)

/-! ### Change-record paths are fully qualified -/

theorem append_dot_ne_empty (p k : String) : p ++ "." ++ k ≠ "" := by
  intro h
  have h2 := congrArg String.length h
  simp [String.length_append] at h2
  exact absurd h2.1.2 (by decide)

theorem joinPath_eq {p : String} (k : String) (hp : p ≠ "") :
    joinPath p k = p ++ "." ++ k := by
  simp [joinPath, hp]

theorem records_path_aux : ∀ (n : Nat) (u t : List (String × Json)) (p : String),
    sizeOf u ≤ n → p ≠ "" →
    ∀ r ∈ (mergeRecursive t u p).2, ∃ s, r.path = p ++ "." ++ s := by
  intro n
  induction n with
  | zero =>
    intro u t p hn
    cases u with
    | nil => simp [merge_nil]
    | cons hd rest => simp at hn
  | succ n ih =>
    intro u t p hn hp r hr
    cases u with
    | nil => simp [merge_nil] at hr
    | cons hd rest =>
      obtain ⟨k0, v0⟩ := hd
      have hsz : sizeOf rest ≤ n ∧ sizeOf v0 ≤ n := by simp at hn; omega
      cases hl : lookupKey t k0 with
      | none =>
        rw [merge_cons_absent v0 rest p hl] at hr
        simp only [List.mem_cons] at hr
        rcases hr with hr | hr
        · subst hr
          exact ⟨k0, by simp [ChangeRecord.path, joinPath_eq k0 hp]⟩
        · exact ih rest (t ++ [(k0, v0)]) p hsz.1 hp r hr
      | some tv =>
        by_cases hobj : v0.isObj = true ∧ tv.isObj = true
        · obtain ⟨uo, huo⟩ := Json.isObj_iff.mp hobj.1
          obtain ⟨tObj, htObj⟩ := Json.isObj_iff.mp hobj.2
          subst huo
          subst htObj
          rw [merge_cons_objobj uo rest p hl] at hr
          rcases List.mem_append.mp hr with hr2 | hr2
          · have hcp : joinPath p k0 ≠ "" := by
              rw [joinPath_eq k0 hp]
              exact append_dot_ne_empty p k0
            have hszu : sizeOf uo ≤ n := by
              have := hsz.2
              simp at this
              omega
            obtain ⟨s, hs⟩ := ih uo tObj (joinPath p k0) hszu hcp r hr2
            refine ⟨k0 ++ "." ++ s, ?_⟩
            rw [hs, joinPath_eq k0 hp]
            simp [String.append_assoc]
          · exact ih rest
              (setKey t k0 (Json.obj (mergeRecursive tObj uo (joinPath p k0)).1)) p
              hsz.1 hp r hr2
        · have hno : v0.isObj = false ∨ tv.isObj = false := by
            rcases h1 : v0.isObj <;> rcases h2 : tv.isObj <;> simp_all
          rw [merge_cons_replace rest p hl hno] at hr
          simp only [List.mem_cons] at hr
          rcases hr with hr | hr
          · subst hr
            exact ⟨k0, by simp [ChangeRecord.path, joinPath_eq k0 hp]⟩
          · exact ih rest (setKey t k0 v0) p hsz.1 hp r hr

theorem records_path (u t : List (String × Json)) (p : String) (hp : p ≠ "") :
    ∀ r ∈ (mergeRecursive t u p).2, ∃ s, r.path = p ++ "." ++ s :=
  records_path_aux (sizeOf u) u t p le_rfl hp

/-! ### Idempotence machinery: targets that already absorb an update -/

/-- Relation `DocAbsorbs t u` states that every update entry is already present in `t`
in a form the merge leaves unchanged: object values meet object values that
absorb them recursively, and terminal values are present verbatim. -/
inductive DocAbsorbs : List (String × Json) → List (String × Json) → Prop where
  | nil (t : List (String × Json)) : DocAbsorbs t []
  | consObj (t : List (String × Json)) (k : String)
      (uo tObj rest : List (String × Json))
      (hl : lookupKey t k = some (Json.obj tObj))
      (hchild : DocAbsorbs tObj uo) (hrest : DocAbsorbs t rest) :
      DocAbsorbs t ((k, Json.obj uo) :: rest)
  | consFlat (t : List (String × Json)) (k : String) (v : Json)
      (rest : List (String × Json))
      (hv : v.isObj = false) (hl : lookupKey t k = some v)
      (hrest : DocAbsorbs t rest) :
      DocAbsorbs t ((k, v) :: rest)

theorem nodupDeep_obj_cons {k0 : String} {v0 : Json} {rest : List (String × Json)}
    (h : nodupDeep (Json.obj ((k0, v0) :: rest)) = true) :
    nodupDeep v0 = true ∧ nodupDeep (Json.obj rest) = true := by
  simp [nodupDeep, nodupDeepList, keys, List.nodup_cons] at h ⊢
  exact ⟨h.2.1, h.1.2, h.2.2⟩

theorem self_absorbs_aux : ∀ (n : Nat) (u t : List (String × Json)),
    sizeOf u ≤ n →
    (∀ k v, lookupKey u k = some v → lookupKey t k = some v) →
    nodupDeep (Json.obj u) = true → DocAbsorbs t u := by
  intro n
  induction n with
  | zero =>
    intro u t hn _ _
    cases u with
    | nil => exact DocAbsorbs.nil t
    | cons hd rest => simp at hn
  | succ n ih =>
    intro u t hn hsub hu
    cases u with
    | nil => exact DocAbsorbs.nil t
    | cons hd rest =>
      obtain ⟨k0, v0⟩ := hd
      have hsz : sizeOf rest ≤ n ∧ sizeOf v0 ≤ n := by simp at hn; omega
      have hnd2 : k0 ∉ keys rest ∧ (keys rest).Nodup := by
        simpa [keys, List.nodup_cons] using nodupDeep_keys hu
      have hcons := nodupDeep_obj_cons hu
      have hlt0 : lookupKey t k0 = some v0 := hsub k0 v0 (by simp [lookupKey])
      have hrest : DocAbsorbs t rest := by
        refine ih rest t hsz.1 ?_ hcons.2
        intro k v hkv
        have hkmem : k ∈ keys rest := by
          by_contra hc
          rw [(lookupKey_eq_none_iff rest k).mpr hc] at hkv
          exact Option.noConfusion hkv
        have hk_ne : ¬ k0 = k := fun he => hnd2.1 (he ▸ hkmem)
        exact hsub k v (by simpa [lookupKey, hk_ne] using hkv)
      by_cases hv0 : v0.isObj = true
      · obtain ⟨uo, huo⟩ := Json.isObj_iff.mp hv0
        subst huo
        have hszuo : sizeOf uo ≤ n := by
          have := hsz.2
          simp at this
          omega
        exact DocAbsorbs.consObj t k0 uo uo rest hlt0
          (ih uo uo hszuo (fun _ _ h => h) hcons.1) hrest
      · exact DocAbsorbs.consFlat t k0 v0 rest (by simpa using hv0) hlt0 hrest

theorem self_absorbs (x : List (String × Json))
    (hx : nodupDeep (Json.obj x) = true) : DocAbsorbs x x :=
  self_absorbs_aux (sizeOf x) x x le_rfl (fun _ _ h => h) hx

theorem absorbs_merge_aux : ∀ (n : Nat) (u t : List (String × Json)) (p : String),
    sizeOf u ≤ n → nodupDeep (Json.obj u) = true →
    DocAbsorbs (mergeRecursive t u p).1 u := by
  intro n
  induction n with
  | zero =>
    intro u t p hn _
    cases u with
    | nil => exact DocAbsorbs.nil _
    | cons hd rest => simp at hn
  | succ n ih =>
    intro u t p hn hu
    cases u with
    | nil => exact DocAbsorbs.nil _
    | cons hd rest =>
      obtain ⟨k0, v0⟩ := hd
      have hsz : sizeOf rest ≤ n ∧ sizeOf v0 ≤ n := by simp at hn; omega
      have hnd2 : k0 ∉ keys rest ∧ (keys rest).Nodup := by
        simpa [keys, List.nodup_cons] using nodupDeep_keys hu
      have hcons := nodupDeep_obj_cons hu
      cases hl : lookupKey t k0 with
      | none =>
        have hM := congrArg Prod.fst (merge_cons_absent v0 rest p hl)
        simp only at hM
        rw [hM]
        have hrest := ih rest (t ++ [(k0, v0)]) p hsz.1 hcons.2
        have hlM : lookupKey (mergeRecursive (t ++ [(k0, v0)]) rest p).1 k0 = some v0 := by
          rw [merge_frame _ p hnd2.1]
          exact lookupKey_append_self v0 hl
        by_cases hv0 : v0.isObj = true
        · obtain ⟨uo, huo⟩ := Json.isObj_iff.mp hv0
          subst huo
          exact DocAbsorbs.consObj _ k0 uo uo rest hlM
            (self_absorbs uo hcons.1) hrest
        · exact DocAbsorbs.consFlat _ k0 v0 rest (by simpa using hv0) hlM hrest
      | some tv =>
        by_cases hobj : v0.isObj = true ∧ tv.isObj = true
        · obtain ⟨uo, huo⟩ := Json.isObj_iff.mp hobj.1
          obtain ⟨tObj, htObj⟩ := Json.isObj_iff.mp hobj.2
          subst huo
          subst htObj
          have hM := congrArg Prod.fst (merge_cons_objobj uo rest p hl)
          simp only at hM
          rw [hM]
          have hrest := ih rest
            (setKey t k0 (Json.obj (mergeRecursive tObj uo (joinPath p k0)).1)) p
            hsz.1 hcons.2
          have hlM : lookupKey
              (mergeRecursive
                (setKey t k0 (Json.obj (mergeRecursive tObj uo (joinPath p k0)).1))
                rest p).1 k0 =
              some (Json.obj (mergeRecursive tObj uo (joinPath p k0)).1) := by
            rw [merge_frame _ p hnd2.1]
            exact lookupKey_setKey_self t k0 _
          have hszuo : sizeOf uo ≤ n := by
            have := hsz.2
            simp at this
            omega
          exact DocAbsorbs.consObj _ k0 uo _ rest hlM
            (ih uo tObj (joinPath p k0) hszuo hcons.1) hrest
        · have hno : v0.isObj = false ∨ tv.isObj = false := by
            rcases h1 : v0.isObj <;> rcases h2 : tv.isObj <;> simp_all
          have hM := congrArg Prod.fst (merge_cons_replace rest p hl hno)
          simp only at hM
          rw [hM]
          have hrest := ih rest (setKey t k0 v0) p hsz.1 hcons.2
          have hlM : lookupKey (mergeRecursive (setKey t k0 v0) rest p).1 k0 =
              some v0 := by
            rw [merge_frame _ p hnd2.1]
            exact lookupKey_setKey_self t k0 v0
          by_cases hv0 : v0.isObj = true
          · obtain ⟨uo, huo⟩ := Json.isObj_iff.mp hv0
            subst huo
            exact DocAbsorbs.consObj _ k0 uo uo rest hlM
              (self_absorbs uo hcons.1) hrest
          · exact DocAbsorbs.consFlat _ k0 v0 rest (by simpa using hv0) hlM hrest

theorem absorbs_merge (u t : List (String × Json)) (p : String)
    (hu : nodupDeep (Json.obj u) = true) :
    DocAbsorbs (mergeRecursive t u p).1 u :=
  absorbs_merge_aux (sizeOf u) u t p le_rfl hu

theorem merge_absorbed_aux : ∀ (n : Nat) (u t : List (String × Json)) (p : String),
    sizeOf u ≤ n → DocAbsorbs t u → nodupDeep (Json.obj u) = true →
    (mergeRecursive t u p).1 = t ∧
      ∀ r ∈ (mergeRecursive t u p).2, r.isUpdated = true := by
  intro n
  induction n with
  | zero =>
    intro u t p hn _ _
    cases u with
    | nil => simp [merge_nil]
    | cons hd rest => simp at hn
  | succ n ih =>
    intro u t p hn ha hu
    cases ha with
    | nil => simp [merge_nil]
    | consObj t k0 uo tObj rest hl hchild hrest_abs =>
      have hsz : sizeOf rest ≤ n ∧ sizeOf uo ≤ n := by simp at hn; omega
      have hcons := nodupDeep_obj_cons hu
      have hchild_res := ih uo tObj (joinPath p k0) hsz.2 hchild hcons.1
      have hrest_res := ih rest t p hsz.1 hrest_abs hcons.2
      rw [merge_cons_objobj uo rest p hl]
      rw [hchild_res.1, setKey_self hl]
      refine ⟨hrest_res.1, ?_⟩
      intro r hr
      rcases List.mem_append.mp hr with h1 | h2
      · exact hchild_res.2 r h1
      · exact hrest_res.2 r h2
    | consFlat t k0 v0 rest hv hl hrest_abs =>
      have hsz : sizeOf rest ≤ n := by simp at hn; omega
      have hcons := nodupDeep_obj_cons hu
      have hrest_res := ih rest t p hsz hrest_abs hcons.2
      rw [merge_cons_replace rest p hl (Or.inl hv)]
      rw [setKey_self hl]
      refine ⟨hrest_res.1, ?_⟩
      intro r hr
      rcases List.mem_cons.mp hr with h1 | h2
      · subst h1
        rfl
      · exact hrest_res.2 r h2

theorem merge_absorbed (u t : List (String × Json)) (p : String)
    (ha : DocAbsorbs t u) (hu : nodupDeep (Json.obj u) = true) :
    (mergeRecursive t u p).1 = t ∧
      ∀ r ∈ (mergeRecursive t u p).2, r.isUpdated = true :=
  merge_absorbed_aux (sizeOf u) u t p le_rfl ha hu

/-! ### File layer: filenames, parsing, per-file and batch processing -/

/-- Python strings in the filename functions are modelled as character lists. -/
abbrev PyStr := List Char

/-- The literal `'add_'` of `extract_locale_from_filename`. -/
def addPre : PyStr := "add_".toList

/-- The literal `'.json'` of `extract_locale_from_filename`. -/
def jsonSuf : PyStr := ".json".toList

/-- Embeds `os.path.basename`: everything after the last slash. -/
def os_basename (p : PyStr) : PyStr :=
  (p.reverse.takeWhile (fun c => c ≠ '/')).reverse

/-- Python slice `[:-n]`: drop the last `n` characters (empty when `n` exceeds
the length, as in Python). -/
def dropRightN (l : PyStr) (n : Nat) : PyStr := l.take (l.length - n)

/-- Embedding of `extract_locale_from_filename`: `basename[4:-5]` when the base
name starts with `add_` and ends with `.json`, `None` otherwise. -/
def extract_locale_from_filename (filename : PyStr) : Option PyStr :=
  let basename := os_basename filename
  if addPre.isPrefixOf basename && jsonSuf.isSuffixOf basename then
    some (dropRightN (basename.drop 4) 5)
  else
    none

/-- Result of opening and parsing a path: the file may be absent, unparseable
(`json.JSONDecodeError` with its diagnostic), parse to a non-mapping JSON
value, or parse to a mapping. -/
inductive FileContent where
  | missing
  | malformed (diag : String)
  | nonMapping
  | doc (d : List (String × Json))

/-- The failure cases `process_file` reports (the code formats these into the
returned message string). -/
inductive ProcError where
  | invalidFilename (f : PyStr)
  | targetNotFound (t : PyStr)
  | jsonError (file : PyStr) (diag : String)
  | otherError (file : PyStr)

/-- The `(success, result)` pair returned by `process_file`. -/
inductive ProcResult where
  | success (target : PyStr) (records : List ChangeRecord)
  | failure (e : ProcError)

def ProcResult.isSuccess : ProcResult → Bool
  | ProcResult.success _ _ => true
  | ProcResult.failure _ => false

/-- Embeds `os.path.join(locales_dir, name)` for a relative directory name. -/
def pathJoin (dir name : PyStr) : PyStr := dir ++ '/' :: name

/-- Overwriting one file of the file system. -/
def writeFile (fs : PyStr → FileContent) (path : PyStr) (c : FileContent) :
    PyStr → FileContent :=
  fun q => if q = path then c else fs q

/-- Embedding of `process_file`: resolve the locale from the filename (the
code's `if not locale:` is a truthiness test, rejecting both `None` and the
empty string), locate the target, check its existence, load both documents,
merge, and write the target back only on success.  Loading a missing update
file or a non-mapping document makes the merge step raise, which the blanket
`except Exception` turns into a failure result without writing. -/
def process_file (fs : PyStr → FileContent) (update_file locales_dir : PyStr) :
    (PyStr → FileContent) × ProcResult :=
  match extract_locale_from_filename update_file with
  | none => (fs, ProcResult.failure (ProcError.invalidFilename update_file))
  | some locale =>
    if locale = [] then
      (fs, ProcResult.failure (ProcError.invalidFilename update_file))
    else
      match fs (pathJoin locales_dir (locale ++ jsonSuf)) with
      | FileContent.missing =>
        (fs, ProcResult.failure
          (ProcError.targetNotFound (pathJoin locales_dir (locale ++ jsonSuf))))
      | FileContent.malformed diag =>
        (fs, ProcResult.failure
          (ProcError.jsonError (pathJoin locales_dir (locale ++ jsonSuf)) diag))
      | FileContent.nonMapping =>
        match fs update_file with
        | FileContent.missing =>
          (fs, ProcResult.failure (ProcError.otherError update_file))
        | FileContent.malformed diag =>
          (fs, ProcResult.failure (ProcError.jsonError update_file diag))
        | FileContent.nonMapping =>
          (fs, ProcResult.failure (ProcError.otherError update_file))
        | FileContent.doc [] =>
          (writeFile fs (pathJoin locales_dir (locale ++ jsonSuf))
             FileContent.nonMapping,
           ProcResult.success (pathJoin locales_dir (locale ++ jsonSuf)) [])
        | FileContent.doc (_ :: _) =>
          (fs, ProcResult.failure (ProcError.otherError update_file))
      | FileContent.doc target_data =>
        match fs update_file with
        | FileContent.missing =>
          (fs, ProcResult.failure (ProcError.otherError update_file))
        | FileContent.malformed diag =>
          (fs, ProcResult.failure (ProcError.jsonError update_file diag))
        | FileContent.nonMapping =>
          (fs, ProcResult.failure (ProcError.otherError update_file))
        | FileContent.doc update_data =>
          (writeFile fs (pathJoin locales_dir (locale ++ jsonSuf))
             (FileContent.doc (mergeRecursive target_data update_data "").1),
           ProcResult.success (pathJoin locales_dir (locale ++ jsonSuf))
             (mergeRecursive target_data update_data "").2)

/-- The batch loop of `main`: process each update file in turn, threading the
file system through and collecting every per-file result. -/
def processAll : (PyStr → FileContent) → List PyStr → PyStr →
    (PyStr → FileContent) × List (PyStr × ProcResult)
  | fs, [], _ => (fs, [])
  | fs, f :: rest, dir =>
    let r := process_file fs f dir
    let rs := processAll r.1 rest dir
    (rs.1, (f, r.2) :: rs.2)

/-- Python string comparison: lexicographic on code points. -/
def pyStrLe : PyStr → PyStr → Bool
  | [], _ => true
  | _ :: _, [] => false
  | a :: as, b :: bs => if a = b then pyStrLe as bs else decide (a < b)

/-- Insertion step of `sorted`. -/
def insertSorted (x : PyStr) : List PyStr → List PyStr
  | [] => [x]
  | y :: ys => if pyStrLe x y then x :: y :: ys else y :: insertSorted x ys

/-- Embeds `sorted(...)` as insertion sort under `pyStrLe`. -/
def sortedStrs (l : List PyStr) : List PyStr := l.foldr insertSorted []

/-- Whether `glob.glob("add_*.json")` matches a directory entry: the entry is
`add_` + anything + `.json` (no string below nine characters can satisfy both
affix tests, so the two tests coincide with the glob pattern). -/
def matchesAddGlob (f : PyStr) : Bool :=
  addPre.isPrefixOf f && jsonSuf.isSuffixOf f

/-- Embeds `sorted(glob.glob("add_*.json"))`. -/
def globAddJson (cwd : List PyStr) : List PyStr :=
  sortedStrs (cwd.filter matchesAddGlob)

/-- State `main` runs against: the files, the set of existing directories and
the current directory listing consulted by `glob`. -/
structure World where
  fs : PyStr → FileContent
  dirs : List PyStr
  cwd : List PyStr

/-- The constant `locales_dir = "locales"` of `main`. -/
def localesDirName : PyStr := "locales".toList

/-- How a run of `main` ends: one of the three `sys.exit(1)` guards, or a
completed run with one result per processed file. -/
inductive MainOutcome where
  | fatalNoDir
  | fatalMissingFile (f : PyStr)
  | fatalNoFiles
  | completed (results : List (PyStr × ProcResult))

/-- Embedding of `main`: the missing-directory check aborts before anything is
processed; single-file mode checks existence of the named file; batch mode
globs and sorts `add_*.json`; then every selected file is processed in order. -/
def mainRun (w : World) (argv1 : Option PyStr) : World × MainOutcome :=
  if localesDirName ∈ w.dirs then
    match argv1 with
    | some f =>
      match w.fs f with
      | FileContent.missing => (w, MainOutcome.fatalMissingFile f)
      | _ =>
        let r := processAll w.fs [f] localesDirName
        ({ w with fs := r.1 }, MainOutcome.completed r.2)
    | none =>
      let files := globAddJson w.cwd
      if files = [] then (w, MainOutcome.fatalNoFiles)
      else
        let r := processAll w.fs files localesDirName
        ({ w with fs := r.1 }, MainOutcome.completed r.2)
  else (w, MainOutcome.fatalNoDir)

/-! ### getPath unfolding -/

theorem getPath_nil (j : Json) : getPath j [] = some j := by
  rw [getPath]

theorem getPath_cons (m : List (String × Json)) (k : String) (ks : List String) :
    getPath (Json.obj m) (k :: ks) =
      (match lookupKey m k with
       | some v => getPath v ks
       | none => none) := by
  rw [getPath]

/-! ### Claim theorems for the merge -/

/-- C1: when the same key holds a nested mapping in both the target and the
update, the merge recurses: the merged value at that key is the recursive merge
of the two mappings — its key sequence is the union (the target's keys followed
by the update's new keys, children reconciled by the same rule) — the target's
mapping is never replaced wholesale, and the nested change records are appended
with their dotted paths already fully qualified below the parent path. -/
theorem c1_nested_mappings_merge_recursively
    (target : List (String × Json)) (k : String)
    (tObj uo rest : List (String × Json)) (path : String)
    (hl : lookupKey target k = some (Json.obj tObj))
    (hrest : k ∉ keys rest)
    (hnd : (keys uo).Nodup)
    (hcp : joinPath path k ≠ "") :
    lookupKey (mergeRecursive target ((k, Json.obj uo) :: rest) path).1 k =
      some (Json.obj (mergeRecursive tObj uo (joinPath path k)).1) ∧
    keys (mergeRecursive tObj uo (joinPath path k)).1 =
      keys tObj ++ (keys uo).filter (fun x => decide (x ∉ keys tObj)) ∧
    (mergeRecursive target ((k, Json.obj uo) :: rest) path).2 =
      (mergeRecursive tObj uo (joinPath path k)).2 ++
        (mergeRecursive
          (setKey target k (Json.obj (mergeRecursive tObj uo (joinPath path k)).1))
          rest path).2 ∧
    ∀ r ∈ (mergeRecursive tObj uo (joinPath path k)).2,
      ∃ s, r.path = joinPath path k ++ "." ++ s := by
  refine ⟨?_, keys_merge tObj (joinPath path k) hnd, ?_,
    records_path uo tObj (joinPath path k) hcp⟩
  · have hM := congrArg Prod.fst (merge_cons_objobj uo rest path hl)
    simp only at hM
    rw [hM, merge_frame _ path hrest]
    exact lookupKey_setKey_self target k _
  · have hR := congrArg Prod.snd (merge_cons_objobj uo rest path hl)
    simpa using hR

theorem c1_witness :
    lookupKey (mergeRecursive [("a", Json.obj [("x", Json.str "1")])]
      [("a", Json.obj [("y", Json.str "2")])] "").1 "a" =
      some (Json.obj [("x", Json.str "1"), ("y", Json.str "2")]) := by
  have h := c1_nested_mappings_merge_recursively
    [("a", Json.obj [("x", Json.str "1")])] "a" [("x", Json.str "1")]
    [("y", Json.str "2")] [] ""
    (by simp [lookupKey]) (by simp [keys]) (by simp [keys]) (by simp [joinPath])
  rw [h.1]
  simp [mergeRecursive, lookupKey, joinPath]

/-- C2: a key present in both documents whose value pair is not
mapping-and-mapping is replaced wholesale by the update's value, and exactly
one change record with the overwrite kind is produced for that path. -/
theorem c2_mismatch_replaces_wholesale
    (t : List (String × Json)) (k : String) (v tv : Json) (p : String)
    (hl : lookupKey t k = some tv)
    (hno : v.isObj = false ∨ tv.isObj = false) :
    mergeRecursive t [(k, v)] p =
      (setKey t k v, [ChangeRecord.updated (joinPath p k)]) := by
  rw [merge_cons_replace [] p hl hno]
  simp [merge_nil]

theorem c2_witness :
    mergeRecursive [("a", Json.str "1")] [("a", Json.obj [("x", Json.str "2")])] "" =
      ([("a", Json.obj [("x", Json.str "2")])], [ChangeRecord.updated "a"]) := by
  have h := c2_mismatch_replaces_wholesale
    [("a", Json.str "1")] "a" (Json.obj [("x", Json.str "2")]) (Json.str "1") ""
    (by simp [lookupKey]) (Or.inr (by simp [Json.isObj]))
  rw [h]
  simp [setKey, joinPath]

/-- C3: every key path present in the update is present in the merged result,
and at every terminal (non-mapping) leaf of the update the result carries the
update's value — the update wins at the leaf. -/
theorem c3_update_wins_at_leaves
    (ps : List String) (t u : List (String × Json)) (p : String) (v : Json)
    (hu : nodupDeep (Json.obj u) = true)
    (hget : getPath (Json.obj u) ps = some v) :
    (getPath (Json.obj (mergeRecursive t u p).1) ps).isSome = true ∧
    (v.isObj = false →
      getPath (Json.obj (mergeRecursive t u p).1) ps = some v) := by
  induction ps generalizing t u p v with
  | nil =>
    rw [getPath_nil] at hget
    have hv : v = Json.obj u := by
      cases hget
      rfl
    subst hv
    refine ⟨by simp [getPath_nil], fun hv => ?_⟩
    simp [Json.isObj] at hv
  | cons k ks ih =>
    rw [getPath_cons] at hget
    cases hl : lookupKey u k with
    | none =>
      rw [hl] at hget
      exact absurd hget (by simp)
    | some uv =>
      rw [hl] at hget
      have hget2 : getPath uv ks = some v := hget
      have hnd : (keys u).Nodup := nodupDeep_keys hu
      rcases lookup_merge_mem t p hnd hl with hres | ⟨uo, tObj, huv, hlt, hres⟩
      · constructor
        · rw [getPath_cons, hres]
          simp [hget2]
        · intro _
          rw [getPath_cons, hres]
          exact hget2
      · subst huv
        have hu2 : nodupDeep (Json.obj uo) = true := nodupDeep_lookup hu hl
        have hih := ih tObj uo (joinPath p k) v hu2 hget2
        constructor
        · rw [getPath_cons, hres]
          exact hih.1
        · intro hv
          rw [getPath_cons, hres]
          exact hih.2 hv

theorem c3_witness :
    (getPath (Json.obj (mergeRecursive
        [("menu", Json.obj [("file", Json.str "File"), ("edit", Json.str "Edit")])]
        [("menu", Json.obj [("file", Json.str "Datei")])] "").1)
      ["menu", "file"]).isSome = true ∧
    ((Json.str "Datei").isObj = false →
      getPath (Json.obj (mergeRecursive
          [("menu", Json.obj [("file", Json.str "File"), ("edit", Json.str "Edit")])]
          [("menu", Json.obj [("file", Json.str "Datei")])] "").1)
        ["menu", "file"] = some (Json.str "Datei")) :=
  c3_update_wins_at_leaves ["menu", "file"]
    [("menu", Json.obj [("file", Json.str "File"), ("edit", Json.str "Edit")])]
    [("menu", Json.obj [("file", Json.str "Datei")])] "" (Json.str "Datei")
    (by simp [nodupDeep, nodupDeepList, keys])
    (by simp [getPath, lookupKey])

/-- C4: the merge never reorders the target's keys: the result's key sequence
is exactly the target's key sequence followed by the update's new keys in the
update's iteration order (this holds at every level, the nested values being
merges of the nested documents by C1). -/
theorem c4_order_preservation (t u : List (String × Json)) (p : String)
    (hnd : (keys u).Nodup) :
    keys (mergeRecursive t u p).1 =
      keys t ++ (keys u).filter (fun x => decide (x ∉ keys t)) :=
  keys_merge t p hnd

theorem c4_witness :
    keys (mergeRecursive [("a", Json.str "1")]
        [("b", Json.str "2"), ("a", Json.str "3")] "").1 =
      keys [("a", Json.str "1")] ++
        (keys [("b", Json.str "2"), ("a", Json.str "3")]).filter
          (fun x => decide (x ∉ keys [("a", Json.str "1")])) :=
  c4_order_preservation [("a", Json.str "1")]
    [("b", Json.str "2"), ("a", Json.str "3")] "" (by simp [keys])

/-- C5: merging the same update a second time is idempotent: the document is
unchanged and the second merge produces only overwrite records, none added. -/
theorem c5_idempotence (t u : List (String × Json)) (p : String)
    (hu : nodupDeep (Json.obj u) = true) :
    (mergeRecursive (mergeRecursive t u p).1 u p).1 = (mergeRecursive t u p).1 ∧
    ∀ r ∈ (mergeRecursive (mergeRecursive t u p).1 u p).2, r.isUpdated = true :=
  merge_absorbed u (mergeRecursive t u p).1 p (absorbs_merge u t p hu) hu

theorem c5_witness :
    (mergeRecursive (mergeRecursive [("a", Json.str "1")]
        [("a", Json.obj [("x", Json.str "2")]), ("b", Json.str "3")] "").1
      [("a", Json.obj [("x", Json.str "2")]), ("b", Json.str "3")] "").1 =
      (mergeRecursive [("a", Json.str "1")]
        [("a", Json.obj [("x", Json.str "2")]), ("b", Json.str "3")] "").1 ∧
    ∀ r ∈ (mergeRecursive (mergeRecursive [("a", Json.str "1")]
        [("a", Json.obj [("x", Json.str "2")]), ("b", Json.str "3")] "").1
      [("a", Json.obj [("x", Json.str "2")]), ("b", Json.str "3")] "").2,
      r.isUpdated = true :=
  c5_idempotence [("a", Json.str "1")]
    [("a", Json.obj [("x", Json.str "2")]), ("b", Json.str "3")] ""
    (by simp [nodupDeep, nodupDeepList, keys])

/-- C6: keys of the target that do not occur in the update are untouched (the
whole subtree below them is unchanged), and the empty update is a no-op that
produces no change records. -/
theorem c6_disjoint_keys_untouched :
    (∀ (t u : List (String × Json)) (p : String) (k : String) (ks : List String),
      k ∉ keys u →
      getPath (Json.obj (mergeRecursive t u p).1) (k :: ks) =
        getPath (Json.obj t) (k :: ks)) ∧
    (∀ (t : List (String × Json)) (p : String), mergeRecursive t [] p = (t, [])) := by
  constructor
  · intro t u p k ks hk
    rw [getPath_cons, getPath_cons, merge_frame t p hk]
  · exact merge_nil

theorem c6_witness :
    getPath (Json.obj (mergeRecursive [("a", Json.obj [("x", Json.str "1")])]
        [("b", Json.str "2")] "").1) ["a", "x"] =
      getPath (Json.obj [("a", Json.obj [("x", Json.str "1")])]) ["a", "x"] :=
  c6_disjoint_keys_untouched.1 [("a", Json.obj [("x", Json.str "1")])]
    [("b", Json.str "2")] "" "a" ["x"] (by simp [keys])

/-- C7: presence is decided by key membership, never by truthiness: a target
value that is null, false, an empty mapping or an empty sequence still counts
as present, so a terminal update at that key yields exactly one overwrite
record (never an added record) and replaces the value. -/
theorem c7_presence_is_key_membership
    (t : List (String × Json)) (k : String) (v tv : Json) (p : String)
    (hl : lookupKey t k = some tv)
    (_hfalsy : tv = Json.null ∨ tv = Json.bool false ∨
      tv = Json.obj [] ∨ tv = Json.arr [])
    (hv : v.isObj = false) :
    mergeRecursive t [(k, v)] p =
      (setKey t k v, [ChangeRecord.updated (joinPath p k)]) := by
  rw [merge_cons_replace [] p hl (Or.inl hv)]
  simp [merge_nil]

theorem c7_witness :
    mergeRecursive [("flag", Json.bool false)] [("flag", Json.str "x")] "" =
      (setKey [("flag", Json.bool false)] "flag" (Json.str "x"),
       [ChangeRecord.updated (joinPath "" "flag")]) :=
  c7_presence_is_key_membership [("flag", Json.bool false)] "flag"
    (Json.str "x") (Json.bool false) ""
    (by simp [lookupKey]) (Or.inr (Or.inl rfl)) (by simp [Json.isObj])

/-! ### Claim theorems for the filename resolver and the file layer -/

/-- C9: the filename-to-locale resolver returns exactly the code standing
between the literal `add_` prefix and the literal `.json` suffix of the base
name, and returns no match for every base name not of that shape. -/
theorem c9_resolver_exact (f : PyStr) :
    (∀ code : PyStr, os_basename f = addPre ++ code ++ jsonSuf →
      extract_locale_from_filename f = some code) ∧
    ((∀ code : PyStr, os_basename f ≠ addPre ++ code ++ jsonSuf) →
      extract_locale_from_filename f = none) := by
  constructor
  · intro code h
    have hpre : addPre.isPrefixOf (os_basename f) = true := by
      rw [h, List.isPrefixOf_iff_prefix, List.append_assoc]
      exact List.prefix_append addPre (code ++ jsonSuf)
    have hsuf : jsonSuf.isSuffixOf (os_basename f) = true := by
      rw [h, List.isSuffixOf_iff_suffix]
      exact List.suffix_append (addPre ++ code) jsonSuf
    have hdrop : (os_basename f).drop 4 = code ++ jsonSuf := by
      rw [h, List.append_assoc]
      have h4 : (4 : Nat) = addPre.length := rfl
      rw [h4, List.drop_left]
    have htake : dropRightN (code ++ jsonSuf) 5 = code := by
      unfold dropRightN
      have hlen : (code ++ jsonSuf).length - 5 = code.length := by
        simp [jsonSuf]
      rw [hlen, List.take_left]
    simp [extract_locale_from_filename, hpre, hsuf, hdrop, htake]
  · intro hno
    by_cases hc : (addPre.isPrefixOf (os_basename f) &&
        jsonSuf.isSuffixOf (os_basename f)) = true
    · exfalso
      obtain ⟨hc1, hc2⟩ : addPre.isPrefixOf (os_basename f) = true ∧
          jsonSuf.isSuffixOf (os_basename f) = true := by
        simpa using hc
      have hpre : addPre <+: os_basename f := by
        rw [← List.isPrefixOf_iff_prefix]
        exact hc1
      have hsuf : jsonSuf <:+ os_basename f := by
        rw [← List.isSuffixOf_iff_suffix]
        exact hc2
      obtain ⟨t1, ht1⟩ := hpre
      obtain ⟨h1, hh1⟩ := hsuf
      by_cases hlen : 4 ≤ h1.length
      · have hp2 : addPre <+: h1 :=
          List.prefix_of_prefix_length_le ⟨t1, ht1⟩ ⟨jsonSuf, hh1⟩
            (by have h4 : addPre.length = 4 := rfl; omega)
        obtain ⟨mid, hmid⟩ := hp2
        apply hno mid
        rw [← hh1, ← hmid]
      · push_neg at hlen
        have hdropb : (os_basename f).drop h1.length = jsonSuf := by
          rw [← hh1]
          exact List.drop_left h1 jsonSuf
        have hdropb2 : (os_basename f).drop h1.length =
            addPre.drop h1.length ++ t1 := by
          rw [← ht1]
          exact List.drop_append_of_le_length
            (by have h4 : addPre.length = 4 := rfl; omega)
        have heq : jsonSuf = addPre.drop h1.length ++ t1 := by
          rw [← hdropb, hdropb2]
        set n := h1.length with hn
        interval_cases n <;> simp [addPre, jsonSuf] at heq
    · have hc2 : (addPre.isPrefixOf (os_basename f) &&
          jsonSuf.isSuffixOf (os_basename f)) = false :=
        Bool.eq_false_iff.mpr hc
      simp [extract_locale_from_filename, hc2]

theorem c9_witness :
    extract_locale_from_filename ("add_de.json".toList) = some ("de".toList) :=
  (c9_resolver_exact ("add_de.json".toList)).1 ("de".toList) (by decide)

/-- C10: for the filename `add_.json` the resolver returns the empty string
rather than no-match, yet `process_file` rejects it as an invalid filename
(the code tests the extracted code for truthiness, not for no-match), so an
empty locale code never triggers a merge or a file write. -/
theorem c10_empty_locale_code (fs : PyStr → FileContent) (dir : PyStr) :
    extract_locale_from_filename ("add_.json".toList) = some [] ∧
    process_file fs ("add_.json".toList) dir =
      (fs, ProcResult.failure (ProcError.invalidFilename ("add_.json".toList))) := by
  have hext : extract_locale_from_filename
      ['a', 'd', 'd', '_', '.', 'j', 's', 'o', 'n'] = some [] := by
    decide
  refine ⟨hext, ?_⟩
  simp [process_file, hext]

/-- C8: per-file processing is atomic and reports rather than raises: whenever
`process_file` returns a failure the file system is unchanged (the target is
not written); an unparseable target or update document yields a failure result
carrying the parse diagnostic; a batch run produces a result for every file, so
a per-file failure never aborts the remaining files; and a missing locales
directory aborts the whole run before any file is processed, leaving the world
unchanged. -/
theorem c8_error_policy :
    (∀ (fs : PyStr → FileContent) (uf dir : PyStr) (fs2 : PyStr → FileContent)
        (e : ProcError),
      process_file fs uf dir = (fs2, ProcResult.failure e) → fs2 = fs) ∧
    (∀ (fs : PyStr → FileContent) (uf dir locale : PyStr) (d : String),
      extract_locale_from_filename uf = some locale → locale ≠ [] →
      fs (pathJoin dir (locale ++ jsonSuf)) = FileContent.malformed d →
      process_file fs uf dir =
        (fs, ProcResult.failure
          (ProcError.jsonError (pathJoin dir (locale ++ jsonSuf)) d))) ∧
    (∀ (fs : PyStr → FileContent) (uf dir locale : PyStr) (d : String)
        (td : List (String × Json)),
      extract_locale_from_filename uf = some locale → locale ≠ [] →
      fs (pathJoin dir (locale ++ jsonSuf)) = FileContent.doc td →
      fs uf = FileContent.malformed d →
      process_file fs uf dir =
        (fs, ProcResult.failure (ProcError.jsonError uf d))) ∧
    (∀ (fs : PyStr → FileContent) (files : List PyStr) (dir : PyStr),
      (processAll fs files dir).2.map Prod.fst = files) ∧
    (∀ (w : World) (argv1 : Option PyStr),
      localesDirName ∉ w.dirs → mainRun w argv1 = (w, MainOutcome.fatalNoDir)) := by
  refine ⟨?_, ?_, ?_, ?_, ?_⟩
  · intro fs uf dir fs2 e h
    unfold process_file at h
    repeat' split at h
    all_goals
      first
      | (injection h with h1 h2; exact h1.symm)
      | (injection h with h1 h2; exact ProcResult.noConfusion h2)
  · intro fs uf dir locale d hext hne htf
    simp [process_file, hext, hne, htf]
  · intro fs uf dir locale d td hext hne htf huf
    simp [process_file, hext, hne, htf, huf]
  · intro fs files dir
    induction files generalizing fs with
    | nil => simp [processAll]
    | cons f rest ih => simp [processAll, ih]
  · intro w argv1 h
    simp [mainRun, h]

theorem c8_witness :
    ((fun _ => FileContent.missing) : PyStr → FileContent) =
      (fun _ => FileContent.missing) ∧
    process_file (fun _ => FileContent.malformed "bad")
      ("add_de.json".toList) ("locales".toList) =
      (fun _ => FileContent.malformed "bad",
       ProcResult.failure (ProcError.jsonError
         (pathJoin ("locales".toList) ("de".toList ++ jsonSuf)) "bad")) ∧
    process_file
      (fun p => if p = pathJoin ("locales".toList) ("de".toList ++ jsonSuf)
        then FileContent.doc [] else FileContent.malformed "bad")
      ("add_de.json".toList) ("locales".toList) =
      (fun p => if p = pathJoin ("locales".toList) ("de".toList ++ jsonSuf)
        then FileContent.doc [] else FileContent.malformed "bad",
       ProcResult.failure (ProcError.jsonError ("add_de.json".toList) "bad")) ∧
    (processAll (fun _ => FileContent.missing)
      ["add_de.json".toList, "nonsense".toList] ("locales".toList)).2.map
        Prod.fst = ["add_de.json".toList, "nonsense".toList] ∧
    mainRun ⟨fun _ => FileContent.missing, [], []⟩ none =
      (⟨fun _ => FileContent.missing, [], []⟩, MainOutcome.fatalNoDir) :=
  ⟨c8_error_policy.1 (fun _ => FileContent.missing) ("add_de.json".toList)
      ("locales".toList) (fun _ => FileContent.missing)
      (ProcError.targetNotFound
        (pathJoin ("locales".toList) ("de".toList ++ jsonSuf))) rfl,
   c8_error_policy.2.1 (fun _ => FileContent.malformed "bad")
      ("add_de.json".toList) ("locales".toList) ("de".toList) "bad"
      (by decide) (by decide) rfl,
   c8_error_policy.2.2.1
      (fun p => if p = pathJoin ("locales".toList) ("de".toList ++ jsonSuf)
        then FileContent.doc [] else FileContent.malformed "bad")
      ("add_de.json".toList) ("locales".toList) ("de".toList) "bad" []
      (by decide) (by decide) (by simp) rfl,
   c8_error_policy.2.2.2.1 (fun _ => FileContent.missing)
      ["add_de.json".toList, "nonsense".toList] ("locales".toList),
   c8_error_policy.2.2.2.2 ⟨fun _ => FileContent.missing, [], []⟩ none
      (by simp)⟩
